import Mathlib

/-!
Shallow embedding of the credential-pool module (apiKeysManager.js) of the
quiz-time-backend repository, together with theorems settling the frozen
claims about it.

The JS module keeps a global array keyStatus of entries
with fields key, available, retryAfter, and a global integer
currentKeyIndex.  We model the pair as a PoolState and each stateful JS
function as a Lean function from (current time, state) to (result, new
state).  Timestamps (Date.now() milliseconds) are modelled as Nat; the time
is read once per call.  The while loop of getAvailableApiKey runs its body
at most keyStatus.length times (guard: attempts < keyStatus.length), so it
is embedded as structural recursion on the remaining number of attempts
(fuel), threading the mutable currentKeyIndex explicitly, including the
cursor mutation that survives the throw on the exhausted path.
-/

namespace QuizTime

/-- One element of the JS keyStatus array: key, available, retryAfter. -/
structure KeyStatus where
  key : String
  available : Bool
  retryAfter : Nat
deriving Repr, DecidableEq

/-- The module-level mutable state: the keyStatus array plus the shared
round-robin cursor currentKeyIndex. -/
structure PoolState where
  keyStatus : List KeyStatus
  currentKeyIndex : Nat
deriving Repr, DecidableEq

/-- Embeds the JS constant RETRY_DELAY_MS = 5 * 60 * 1000 (five minutes of
milliseconds). -/
def RETRY_DELAY_MS : Nat := 5 * 60 * 1000

/-- The selection test of the scan loop:
status.available || status.retryAfter <= now. -/
def usable (now : Nat) (s : KeyStatus) : Bool :=
  s.available || decide (s.retryAfter ≤ now)

/-- The in-place mutation performed on the winning entry:
status.available = true; status.retryAfter = 0. -/
def normalize (s : KeyStatus) : KeyStatus :=
  { s with available := true, retryAfter := 0 }

/-- The message of the error thrown when no key is usable. -/
def POOL_EXHAUSTED_MSG : String :=
  "No Gemini API key is currently available. All keys are either rate-limited or marked as temporarily unavailable. Please try again later."

/-- Embeds the while loop of getAvailableApiKey (guard:
attempts < keyStatus.length).  Here fuel is the number of attempts still
allowed and idx the current value of currentKeyIndex.  Returns
Sum.inl (foundKey, mutated array, index of the winning entry) when the loop
breaks with a key, and Sum.inr idx with the final cursor value when it ends
with foundKey still null (either the attempts guard fails or the cursor
wrapped back to startIndex). -/
def scanLoop (now startIndex : Nat) :
    Nat → Nat → List KeyStatus → (String × List KeyStatus × Nat) ⊕ Nat
  | 0, idx, _ => Sum.inr idx
  | fuel + 1, idx, ks =>
    match ks[idx]? with
    | none => Sum.inr idx
    | some status =>
      if usable now status then
        Sum.inl (status.key, ks.set idx (normalize status), idx)
      else
        let idx2 := (idx + 1) % ks.length
        if idx2 = startIndex then Sum.inr idx2
        else scanLoop now startIndex fuel idx2 ks

/-- Embeds getAvailableApiKey().  On success the cursor is advanced once
past the winning entry (the loop broke with currentKeyIndex at the winning
index and the function then runs
currentKeyIndex = (currentKeyIndex + 1) % keyStatus.length); on failure the
function throws, leaving the cursor wherever the loop left it. -/
def getAvailableApiKey (now : Nat) (st : PoolState) :
    Except String String × PoolState :=
  let n := st.keyStatus.length
  let start := st.currentKeyIndex
  match scanLoop now start n start st.keyStatus with
  | Sum.inl (k, ks2, j) => (Except.ok k, ⟨ks2, (j + 1) % n⟩)
  | Sum.inr r => (Except.error POOL_EXHAUSTED_MSG, ⟨st.keyStatus, r⟩)

/-- Tests whether the first character list is an initial segment of the
second (helper for the JS String.prototype.includes). -/
def startsWithChars : List Char → List Char → Bool
  | [], _ => true
  | _ :: _, [] => false
  | a :: as, b :: bs => a == b && startsWithChars as bs

/-- Tests whether the first character list occurs contiguously inside the
second. -/
def hasSubstrChars (pat : List Char) : List Char → Bool
  | [] => startsWithChars pat []
  | b :: bs => startsWithChars pat (b :: bs) || hasSubstrChars pat bs

/-- Embeds s.includes(pat): case-sensitive substring containment. -/
def jsIncludes (s pat : String) : Bool :=
  hasSubstrChars pat.data s.data

/-- The rate-limit classification of updateApiKeyStatus:
errorMessage.includes of "rate limit", of "quota exceeded", or of "429". -/
def isRateLimitMsg (m : String) : Bool :=
  jsIncludes m "rate limit" || jsIncludes m "quota exceeded" || jsIncludes m "429"

/-- Embeds updateApiKeyStatus(keyInUse, success, errorMessage).  The JS
find locates the first entry whose key equals keyInUse and mutates it in
place; an unknown key is a silent no-op. -/
def updateApiKeyStatus (now : Nat) (keyInUse : String) (success : Bool)
    (errorMessage : String) (st : PoolState) : PoolState :=
  match st.keyStatus.findIdx? (fun e => e.key == keyInUse) with
  | none => st
  | some i =>
    match st.keyStatus[i]? with
    | none => st
    | some e =>
      let e2 :=
        if success then { e with available := true, retryAfter := 0 }
        else if isRateLimitMsg errorMessage then
          { e with available := false, retryAfter := now + RETRY_DELAY_MS }
        else { e with available := true }
      { st with keyStatus := st.keyStatus.set i e2 }

/-- The pool immediately after construction: one entry per configured key,
all available (available: true, retryAfter: 0), cursor at 0. -/
def initPool (keys : List String) : PoolState :=
  { keyStatus := keys.map (fun k => { key := k, available := true, retryAfter := 0 })
    currentKeyIndex := 0 }

/-- Runs n consecutive getAvailableApiKey calls at a fixed time, collecting
the results. -/
def acquireSeq (now : Nat) (st : PoolState) : Nat → List (Except String String) × PoolState
  | 0 => ([], st)
  | n + 1 =>
    let r := getAvailableApiKey now st
    let rest := acquireSeq now r.2 n
    (r.1 :: rest.1, rest.2)

/-- Runs consecutive getAvailableApiKey calls, one at each time of the
list. -/
def acquireTrace (st : PoolState) : List Nat → List (Except String String) × PoolState
  | [] => ([], st)
  | t :: ts =>
    let r := getAvailableApiKey t st
    let rest := acquireTrace r.2 ts
    (r.1 :: rest.1, rest.2)

/-- Decides whether a usable entry sits at list index i (the scan test
composed with the array lookup). -/
def usableIdx (now : Nat) (ks : List KeyStatus) (i : Nat) : Bool :=
  match ks[i]? with
  | none => false
  | some e => usable now e

/-- A pool whose entries are all fresh (available, no deadline), with the
cursor at c. -/
def allAvailState (keys : List String) (c : Nat) : PoolState :=
  ⟨keys.map (fun k => ⟨k, true, 0⟩), c⟩

/-- Concrete pool: entry 0 cooling until time 100, entry 1 available,
cursor at 0. -/
def cexPool : PoolState := ⟨[⟨"a", false, 100⟩, ⟨"b", true, 0⟩], 0⟩

/-- Concrete pool with every entry cooling (deadlines 100 and 200),
cursor at 1. -/
def exhPool : PoolState := ⟨[⟨"a", false, 100⟩, ⟨"b", false, 200⟩], 1⟩

/-- Arithmetic helper: adding m to s below N cannot return to s modulo N
unless m is a multiple of N. -/
theorem add_mod_cancel_self {N s m : Nat} (hs : s < N) (h : (s + m) % N = s) :
    m % N = 0 := by
  have hN : 0 < N := Nat.lt_of_le_of_lt (Nat.zero_le s) hs
  have h1 : (s + m) % N = (s + m % N) % N := by
    conv_lhs => rw [Nat.add_mod]
    rw [Nat.mod_eq_of_lt hs]
  have hr : m % N < N := Nat.mod_lt _ hN
  rcases Nat.lt_or_ge (s + m % N) N with hlt | hge
  · rw [h1, Nat.mod_eq_of_lt hlt] at h; omega
  · have h2 : (s + m % N) % N = s + m % N - N := by
      rw [Nat.mod_eq_sub_mod hge, Nat.mod_eq_of_lt (by omega)]
    rw [h1, h2] at h; omega

/-- Arithmetic helper: one cyclic step followed by t more equals t + 1
steps. -/
theorem mod_add_shift (N idx t : Nat) :
    ((idx + 1) % N + t) % N = (idx + (t + 1)) % N := by
  rw [Nat.mod_add_mod]; congr 1; omega

/-- Inversion of a successful scan: the loop broke at index j, whose entry
passed the usable test; the key is that entry of the array and the array
was mutated exactly at j. -/
theorem scan_inl_inv (now start : Nat) (ks : List KeyStatus) :
    ∀ fuel idx k ks2 j, scanLoop now start fuel idx ks = Sum.inl (k, ks2, j) →
      ∃ e, ks[j]? = some e ∧ usable now e = true ∧ k = e.key ∧
        ks2 = ks.set j (normalize e) := by
  intro fuel
  induction fuel with
  | zero => intro idx k ks2 j h; simp [scanLoop] at h
  | succ n ih =>
    intro idx k ks2 j h
    rw [scanLoop] at h
    cases hx : ks[idx]? with
    | none => rw [hx] at h; simp at h
    | some status =>
      rw [hx] at h
      dsimp only at h
      by_cases hu : usable now status = true
      · rw [if_pos hu] at h
        injection h with h'
        injection h' with h1 h'
        injection h' with h2 h3
        subst h3
        exact ⟨status, hx, hu, h1.symm, h2.symm⟩
      · rw [if_neg hu] at h
        by_cases hw : (idx + 1) % ks.length = start
        · rw [if_pos hw] at h; simp at h
        · rw [if_neg hw] at h
          exact ih _ _ _ _ h

/-- The scan selects the first usable entry in cyclic order.  Arguments
fuel and idx are related by the loop invariant idx = (start + steps) % N
where steps = N - fuel is the number of advances already made. -/
theorem scan_select (now start : Nat) (ks : List KeyStatus)
    (hstart : start < ks.length) :
    ∀ fuel idx d e, fuel ≤ ks.length →
      idx = (start + (ks.length - fuel)) % ks.length →
      d < fuel →
      (∀ t < d, ∀ e', ks[(idx + t) % ks.length]? = some e' →
        usable now e' = false) →
      ks[(idx + d) % ks.length]? = some e → usable now e = true →
      scanLoop now start fuel idx ks =
        Sum.inl (e.key, ks.set ((idx + d) % ks.length) (normalize e),
          (idx + d) % ks.length) := by
  intro fuel
  induction fuel with
  | zero => intro idx d e _ _ hd; omega
  | succ n ih =>
    intro idx d e hfuel hidx hd hskip he hu
    have hN : 0 < ks.length := Nat.lt_of_le_of_lt (Nat.zero_le start) hstart
    have hidxlt : idx < ks.length := by rw [hidx]; exact Nat.mod_lt _ hN
    rw [scanLoop]
    cases d with
    | zero =>
      have hidx0 : (idx + 0) % ks.length = idx := by
        rw [Nat.add_zero, Nat.mod_eq_of_lt hidxlt]
      rw [hidx0] at he
      rw [he]
      dsimp only
      rw [if_pos hu, hidx0]
    | succ d' =>
      have hidx0 : (idx + 0) % ks.length = idx := by
        rw [Nat.add_zero, Nat.mod_eq_of_lt hidxlt]
      have hstatus : ∃ status, ks[idx]? = some status :=
        ⟨ks[idx], (List.getElem?_eq_some).mpr ⟨hidxlt, rfl⟩⟩
      obtain ⟨status, hst⟩ := hstatus
      have hsu : usable now status = false := by
        apply hskip 0 (Nat.succ_pos d') status
        rw [hidx0]; exact hst
      rw [hst]
      dsimp only
      rw [if_neg (by rw [hsu]; exact Bool.false_ne_true)]
      have hn1 : 0 < n := by omega
      have hstep : (idx + 1) % ks.length =
          (start + (ks.length - n)) % ks.length := by
        rw [hidx, Nat.mod_add_mod]; congr 1; omega
      have hwrap : (idx + 1) % ks.length ≠ start := by
        intro hcontra
        rw [hstep] at hcontra
        have := add_mod_cancel_self hstart hcontra
        have h1 : ks.length - n < ks.length := by omega
        rw [Nat.mod_eq_of_lt h1] at this
        omega
      rw [if_neg hwrap]
      have hskip' : ∀ t < d', ∀ e',
          ks[((idx + 1) % ks.length + t) % ks.length]? = some e' →
          usable now e' = false := by
        intro t ht e' h'
        rw [mod_add_shift] at h'
        exact hskip (t + 1) (by omega) e' h'
      have he' : ks[((idx + 1) % ks.length + d') % ks.length]? = some e := by
        rw [mod_add_shift]; exact he
      have := ih ((idx + 1) % ks.length) d' e (by omega) hstep (by omega)
        hskip' he' hu
      rw [this, mod_add_shift]

/-- Says that getAvailableApiKey returns the key of the first usable entry
at cyclic offset d from the cursor, normalizes that entry, and sets the
cursor one past the selected index. -/
theorem acquire_select (now : Nat) (st : PoolState)
    (hc : st.currentKeyIndex < st.keyStatus.length) (d : Nat) (e : KeyStatus)
    (hd : d < st.keyStatus.length)
    (hskip : ∀ t < d, ∀ e',
      st.keyStatus[(st.currentKeyIndex + t) % st.keyStatus.length]? = some e' →
      usable now e' = false)
    (he : st.keyStatus[(st.currentKeyIndex + d) % st.keyStatus.length]? = some e)
    (hu : usable now e = true) :
    getAvailableApiKey now st =
      (Except.ok e.key,
        ⟨st.keyStatus.set ((st.currentKeyIndex + d) % st.keyStatus.length)
          (normalize e),
         ((st.currentKeyIndex + d) % st.keyStatus.length + 1) %
           st.keyStatus.length⟩) := by
  have hinv : st.currentKeyIndex =
      (st.currentKeyIndex + (st.keyStatus.length - st.keyStatus.length)) %
        st.keyStatus.length := by
    rw [Nat.sub_self, Nat.add_zero, Nat.mod_eq_of_lt hc]
  have hscan := scan_select now st.currentKeyIndex st.keyStatus hc
    st.keyStatus.length st.currentKeyIndex d e (Nat.le_refl _) hinv hd hskip he hu
  simp only [getAvailableApiKey]
  rw [hscan]

/-- If every entry fails the usable test, the scan never finds a key. -/
theorem scan_all_unusable (now start : Nat) (ks : List KeyStatus)
    (h : ∀ e ∈ ks, usable now e = false) :
    ∀ fuel idx, ∃ r, scanLoop now start fuel idx ks = Sum.inr r := by
  intro fuel
  induction fuel with
  | zero => intro idx; exact ⟨idx, rfl⟩
  | succ n ih =>
    intro idx
    rw [scanLoop]
    cases hx : ks[idx]? with
    | none => exact ⟨idx, rfl⟩
    | some status =>
      dsimp only
      have hsu : usable now status = false :=
        h status (List.mem_iff_getElem?.mpr ⟨idx, hx⟩)
      rw [if_neg (by rw [hsu]; exact Bool.false_ne_true)]
      by_cases hw : (idx + 1) % ks.length = start
      · rw [if_pos hw]; exact ⟨(idx + 1) % ks.length, rfl⟩
      · rw [if_neg hw]; exact ih ((idx + 1) % ks.length)

/-- When the scan ends without a key, the cursor has wrapped back to the
starting index. -/
theorem scan_inr_start (now start : Nat) (ks : List KeyStatus)
    (hstart : start < ks.length) :
    ∀ fuel idx r, fuel ≤ ks.length →
      idx = (start + (ks.length - fuel)) % ks.length →
      scanLoop now start fuel idx ks = Sum.inr r → r = start := by
  intro fuel
  induction fuel with
  | zero =>
    intro idx r _ hidx h
    rw [scanLoop] at h
    injection h with h'
    rw [← h', hidx, Nat.sub_zero, Nat.add_mod_right, Nat.mod_eq_of_lt hstart]
  | succ n ih =>
    intro idx r hfuel hidx h
    have hN : 0 < ks.length := Nat.lt_of_le_of_lt (Nat.zero_le start) hstart
    have hidxlt : idx < ks.length := by rw [hidx]; exact Nat.mod_lt _ hN
    rw [scanLoop] at h
    cases hx : ks[idx]? with
    | none =>
      exact absurd hx (by
        rw [(List.getElem?_eq_some).mpr ⟨hidxlt, rfl⟩]
        exact fun hcontra => Option.noConfusion hcontra)
    | some status =>
      rw [hx] at h
      dsimp only at h
      by_cases hu : usable now status = true
      · rw [if_pos hu] at h; exact absurd h (by intro hc; cases hc)
      · rw [if_neg hu] at h
        by_cases hw : (idx + 1) % ks.length = start
        · rw [if_pos hw] at h
          injection h with h'
          rw [← h', hw]
        · rw [if_neg hw] at h
          have hstep : (idx + 1) % ks.length =
              (start + (ks.length - n)) % ks.length := by
            rw [hidx, Nat.mod_add_mod]
            congr 1
            omega
          exact ih ((idx + 1) % ks.length) r (by omega) hstep h

/-- Characterization of the usableIdx test. -/
theorem usableIdx_eq_true_iff (now : Nat) (ks : List KeyStatus) (i : Nat) :
    usableIdx now ks i = true ↔
      ∃ e, ks[i]? = some e ∧ usable now e = true := by
  unfold usableIdx
  cases hx : ks[i]? with
  | none =>
    simp only []
    constructor
    · intro h; cases h
    · rintro ⟨e, he, _⟩; cases he
  | some e =>
    simp only []
    constructor
    · intro h; exact ⟨e, rfl, h⟩
    · rintro ⟨e', he', hu⟩; injection he' with he'; rw [he']; exact hu

/-- Writing back the value already stored at an index leaves the list
unchanged. -/
theorem set_getElem?_self {α : Type} {l : List α} {i : Nat} {a : α}
    (h : l[i]? = some a) : l.set i a = l := by
  apply List.ext_getElem?
  intro j
  rw [List.getElem?_set]
  by_cases hij : i = j
  · subst hij
    rw [if_pos rfl, if_pos ((List.getElem?_eq_some).mp h).1, h]
  · rw [if_neg hij]

/-- If some entry is usable and the cursor is in range, the acquisition
succeeds, returning the key of a usable entry e at some index j,
normalizing that entry and moving the cursor one past j. -/
theorem acquire_success_spec (now : Nat) (st : PoolState)
    (hc : st.currentKeyIndex < st.keyStatus.length)
    (i : Nat) (hi : i < st.keyStatus.length)
    (hui : usableIdx now st.keyStatus i = true) :
    ∃ j e, st.keyStatus[j]? = some e ∧ usable now e = true ∧
      getAvailableApiKey now st =
        (Except.ok e.key,
          ⟨st.keyStatus.set j (normalize e),
           (j + 1) % st.keyStatus.length⟩) := by
  have hN : 0 < st.keyStatus.length :=
    Nat.lt_of_le_of_lt (Nat.zero_le _) hc
  have ht0 : (st.currentKeyIndex +
      (i + st.keyStatus.length - st.currentKeyIndex) % st.keyStatus.length) %
      st.keyStatus.length = i := by
    rw [Nat.add_mod_mod]
    have : st.currentKeyIndex + (i + st.keyStatus.length - st.currentKeyIndex) =
        i + st.keyStatus.length := by omega
    rw [this, Nat.add_mod_right, Nat.mod_eq_of_lt hi]
  have hP : ∃ t, usableIdx now st.keyStatus
      ((st.currentKeyIndex + t) % st.keyStatus.length) = true :=
    ⟨(i + st.keyStatus.length - st.currentKeyIndex) % st.keyStatus.length,
      by rw [ht0]; exact hui⟩
  have hd := Nat.find_spec hP
  have hdlt : Nat.find hP < st.keyStatus.length := by
    have h1 := Nat.find_min' hP
      (m := (i + st.keyStatus.length - st.currentKeyIndex) % st.keyStatus.length)
      (by rw [ht0]; exact hui)
    have h2 : (i + st.keyStatus.length - st.currentKeyIndex) %
        st.keyStatus.length < st.keyStatus.length := Nat.mod_lt _ hN
    omega
  obtain ⟨e, he, hu⟩ := (usableIdx_eq_true_iff _ _ _).mp hd
  refine ⟨(st.currentKeyIndex + Nat.find hP) % st.keyStatus.length, e, he, hu, ?_⟩
  apply acquire_select now st hc (Nat.find hP) e hdlt ?_ he hu
  intro t ht e' he'
  have hmin := Nat.find_min hP ht
  rw [usableIdx_eq_true_iff] at hmin
  by_contra hcontra
  exact hmin ⟨e', he', by
    cases hb : usable now e' with
    | false => exact absurd hb hcontra
    | true => rfl⟩

/-- Accumulator version of the first-match characterization of
List.findIdx?. -/
theorem findIdx?_go_of_first {α : Type} (p : α → Bool) :
    ∀ (l : List α) (j s : Nat) (e : α), l[j]? = some e → p e = true →
      (∀ k < j, ∀ e', l[k]? = some e' → p e' = false) →
      List.findIdx? p l s = some (s + j) := by
  intro l
  induction l with
  | nil => intro j s e he _ _; cases he
  | cons x xs ih =>
    intro j s e he hp hfirst
    rw [List.findIdx?_cons]
    cases j with
    | zero =>
      rw [List.getElem?_cons_zero] at he
      injection he with he
      subst he
      rw [if_pos hp, Nat.add_zero]
    | succ j' =>
      have hx : p x = false :=
        hfirst 0 (Nat.succ_pos j') x (List.getElem?_cons_zero)
      rw [if_neg (by rw [hx]; exact Bool.false_ne_true)]
      rw [List.getElem?_cons_succ] at he
      have := ih j' (s + 1) e he hp
        (fun k hk e' he' =>
          hfirst (k + 1) (by omega) e' (by rw [List.getElem?_cons_succ]; exact he'))
      rw [this]
      congr 1
      omega

/-- Says that List.findIdx? returns the index of the first entry satisfying
the test. -/
theorem findIdx?_of_first {α : Type} (p : α → Bool) (l : List α) (j : Nat)
    (e : α) (he : l[j]? = some e) (hp : p e = true)
    (hfirst : ∀ k < j, ∀ e', l[k]? = some e' → p e' = false) :
    List.findIdx? p l = some j := by
  have := findIdx?_go_of_first p l j 0 e he hp hfirst
  rw [this, Nat.zero_add]

/-- Unfolding of updateApiKeyStatus when keyInUse matches the entry at
index j and no earlier entry: the pool is updated at exactly j, by the
branch of the JS if/else chain selected by success and the rate-limit
classification. -/
theorem update_found (now : Nat) (secret : String) (success : Bool)
    (d : String) (st : PoolState) (j : Nat) (e : KeyStatus)
    (hj : st.keyStatus[j]? = some e) (hkey : e.key = secret)
    (hfirst : ∀ k < j, ∀ e', st.keyStatus[k]? = some e' → e'.key ≠ secret) :
    updateApiKeyStatus now secret success d st =
      ⟨st.keyStatus.set j
          (if success then { e with available := true, retryAfter := 0 }
           else if isRateLimitMsg d then
             { e with available := false, retryAfter := now + RETRY_DELAY_MS }
           else { e with available := true }),
       st.currentKeyIndex⟩ := by
  have hidx : st.keyStatus.findIdx? (fun x => x.key == secret) = some j := by
    apply findIdx?_of_first _ _ j e hj (by rw [hkey]; exact beq_self_eq_true _)
    intro k hk e' he'
    have := hfirst k hk e' he'
    exact beq_eq_false_iff_ne.mpr this
  unfold updateApiKeyStatus
  rw [hidx]
  dsimp only
  rw [hj]

/-- Element lookup in the all-available pool. -/
theorem allAvail_getElem? (keys : List String) (i : Nat)
    (hi : i < keys.length) :
    (keys.map (fun k => (⟨k, true, 0⟩ : KeyStatus)))[i]? =
      some ⟨keys[i], true, 0⟩ := by
  rw [List.getElem?_map, (List.getElem?_eq_some).mpr ⟨hi, rfl⟩]
  rfl

/-- One acquisition from an all-available pool: returns the key under the
cursor, leaves every entry untouched, advances the cursor by one (mod N). -/
theorem acquire_step_allAvail (now : Nat) (keys : List String) (c : Nat)
    (hc : c < keys.length) :
    getAvailableApiKey now (allAvailState keys c) =
      (Except.ok keys[c], allAvailState keys ((c + 1) % keys.length)) := by
  unfold allAvailState
  have hlen : (keys.map (fun k => (⟨k, true, 0⟩ : KeyStatus))).length =
      keys.length := List.length_map _ _
  have hc' : c < (keys.map (fun k => (⟨k, true, 0⟩ : KeyStatus))).length := by
    rw [hlen]; exact hc
  have he : (keys.map (fun k => (⟨k, true, 0⟩ : KeyStatus)))[(c + 0) %
      (keys.map (fun k => (⟨k, true, 0⟩ : KeyStatus))).length]? =
      some ⟨keys[c], true, 0⟩ := by
    rw [hlen, Nat.add_zero, Nat.mod_eq_of_lt hc]
    exact allAvail_getElem? keys c hc
  have hsel := acquire_select now
    ⟨keys.map (fun k => (⟨k, true, 0⟩ : KeyStatus)), c⟩ hc' 0
    ⟨keys[c], true, 0⟩ (by rw [hlen]; omega)
    (fun t ht => absurd ht (Nat.not_lt_zero t)) he rfl
  rw [hsel]
  dsimp only [normalize]
  rw [hlen, Nat.add_zero, Nat.mod_eq_of_lt hc]
  rw [set_getElem?_self (allAvail_getElem? keys c hc)]

/-- Running m acquisitions on an all-available pool starting at cursor c
returns the keys at positions c, c+1, …, c+m-1 and moves the cursor to
(c + m) % N, leaving the entries untouched. -/
theorem acquireSeq_allAvail (now : Nat) (keys : List String) :
    ∀ (m c : Nat), c < keys.length → c + m ≤ keys.length →
      acquireSeq now (allAvailState keys c) m =
        (((keys.drop c).take m).map Except.ok,
         allAvailState keys ((c + m) % keys.length)) := by
  intro m
  induction m with
  | zero =>
    intro c hc _
    rw [acquireSeq]
    rw [List.take_zero, List.map_nil, Nat.add_zero, Nat.mod_eq_of_lt hc]
  | succ m ih =>
    intro c hc hcm
    rw [acquireSeq]
    rw [acquire_step_allAvail now keys c hc]
    have hdrop : keys.drop c = keys[c] :: keys.drop (c + 1) :=
      List.drop_eq_getElem_cons hc
    cases m with
    | zero =>
      rw [acquireSeq]
      rw [hdrop]
      rw [List.take_succ_cons, List.take_zero, List.map_cons, List.map_nil]
    | succ m' =>
      have hc1 : c + 1 < keys.length := by omega
      rw [Nat.mod_eq_of_lt hc1]
      rw [ih (c + 1) hc1 (by omega)]
      rw [hdrop, List.take_succ_cons, List.map_cons]
      have : c + 1 + (m' + 1) = c + (m' + 1 + 1) := by omega
      rw [this]

/-- C1: starting from a freshly constructed pool of N ≥ 1 keys (all
available, cursor 0), N consecutive acquisitions all succeed and return
the keys in pool order, each exactly once, and leave the pool in its
initial state again (so the next call wraps to entry 0). -/
theorem C1_round_robin_from_init (now : Nat) (keys : List String)
    (h : 1 ≤ keys.length) :
    acquireSeq now (initPool keys) keys.length =
      (keys.map Except.ok, initPool keys) := by
  have h0 : (0 : Nat) < keys.length := h
  have hmain := acquireSeq_allAvail now keys keys.length 0 h0 (by omega)
  rw [show initPool keys = allAvailState keys 0 from rfl, hmain]
  rw [List.drop_zero, List.take_length, Nat.zero_add, Nat.mod_self]

theorem C1_witness :
    acquireSeq 5 (initPool ["a", "b", "c"]) 3 =
      ([Except.ok "a", Except.ok "b", Except.ok "c"],
       initPool ["a", "b", "c"]) :=
  C1_round_robin_from_init 5 ["a", "b", "c"] (by decide)

/-- C2 is false on the code: with entry 0 cooling and entry 1 available,
acquisition at time 0 from cursor 0 succeeds (selecting entry 1) but the
cursor afterwards is 0, not (0 + 1) % 2 = 1: the advance the scan made
past the cooling entry is kept, so the cursor moves by more than one. -/
theorem C2_counterexample :
    (getAvailableApiKey 0 cexPool).1 = Except.ok "b" ∧
    (getAvailableApiKey 0 cexPool).2.currentKeyIndex ≠
      (cexPool.currentKeyIndex + 1) % cexPool.keyStatus.length :=
  ⟨rfl, by decide⟩

/-- C2 (amended): whenever Acquire succeeds, the cursor afterwards equals
the index of the selected entry plus one (mod N) — which exceeds the
pre-call cursor plus one whenever the scan skipped cooling entries. -/
theorem C2_cursor_after_success (now : Nat) (st : PoolState) (k : String)
    (st' : PoolState)
    (h : getAvailableApiKey now st = (Except.ok k, st')) :
    ∃ j e, st.keyStatus[j]? = some e ∧ usable now e = true ∧ k = e.key ∧
      st'.currentKeyIndex = (j + 1) % st.keyStatus.length ∧
      st'.keyStatus = st.keyStatus.set j (normalize e) := by
  simp only [getAvailableApiKey] at h
  cases hscan : scanLoop now st.currentKeyIndex st.keyStatus.length
      st.currentKeyIndex st.keyStatus with
  | inl v =>
    obtain ⟨k', ks2, j⟩ := v
    obtain ⟨e, he, hu, hk, hks⟩ :=
      scan_inl_inv now st.currentKeyIndex st.keyStatus _ _ _ _ _ hscan
    rw [hscan] at h
    dsimp only at h
    injection h with h1 h2
    injection h1 with h1
    refine ⟨j, e, he, hu, h1 ▸ hk, ?_, ?_⟩
    · rw [← h2]
    · rw [← h2]; exact hks
  | inr r =>
    rw [hscan] at h
    dsimp only at h
    injection h with h1 _
    cases h1

theorem C2_amended_witness :
    ∃ j e, cexPool.keyStatus[j]? = some e ∧ usable 0 e = true ∧
      "b" = e.key ∧
      (0 : Nat) = (j + 1) % cexPool.keyStatus.length ∧
      [(⟨"a", false, 100⟩ : KeyStatus), ⟨"b", true, 0⟩] =
        cexPool.keyStatus.set j (normalize e) :=
  C2_cursor_after_success 0 cexPool "b"
    ⟨[⟨"a", false, 100⟩, ⟨"b", true, 0⟩], 0⟩ rfl

/-- C3: if every entry is cooling with an unexpired deadline, the
acquisition (whose scan is bounded by one revolution: the loop runs at most
keyStatus.length times) ends in the pool-exhausted error rather than a
key; if instead some entry passes the usability test, it returns a key. -/
theorem C3_exhausted_or_success (now : Nat) (st : PoolState)
    (hc : st.currentKeyIndex < st.keyStatus.length) :
    ((∀ e ∈ st.keyStatus, e.available = false ∧ now < e.retryAfter) →
      (getAvailableApiKey now st).1 = Except.error POOL_EXHAUSTED_MSG) ∧
    ((∃ i, i < st.keyStatus.length ∧ usableIdx now st.keyStatus i = true) →
      ∃ k, (getAvailableApiKey now st).1 = Except.ok k) := by
  constructor
  · intro hall
    have hun : ∀ e ∈ st.keyStatus, usable now e = false := by
      intro e he
      obtain ⟨h1, h2⟩ := hall e he
      unfold usable
      rw [h1, decide_eq_false (by omega), Bool.or_self]
    obtain ⟨r, hr⟩ := scan_all_unusable now st.currentKeyIndex st.keyStatus
      hun st.keyStatus.length st.currentKeyIndex
    simp only [getAvailableApiKey]
    rw [hr]
  · rintro ⟨i, hi, hu⟩
    obtain ⟨j, e, _, _, heq⟩ := acquire_success_spec now st hc i hi hu
    exact ⟨e.key, by rw [heq]⟩

theorem C3_witness :
    (getAvailableApiKey 0 exhPool).1 = Except.error POOL_EXHAUSTED_MSG ∧
    ∃ k, (getAvailableApiKey 0 cexPool).1 = Except.ok k :=
  ⟨(C3_exhausted_or_success 0 exhPool (by decide)).1 (by decide),
   (C3_exhausted_or_success 0 cexPool (by decide)).2 ⟨1, by decide, rfl⟩⟩

/-- C9: when the acquisition fails with the pool-exhausted error, the whole
pool state is unchanged: the cursor has wrapped back to its starting value
and no entry was touched. -/
theorem C9_failure_preserves_state (now : Nat) (st : PoolState)
    (hc : st.currentKeyIndex < st.keyStatus.length)
    (hfail : (getAvailableApiKey now st).1 =
      Except.error POOL_EXHAUSTED_MSG) :
    (getAvailableApiKey now st).2 = st := by
  cases hscan : scanLoop now st.currentKeyIndex st.keyStatus.length
      st.currentKeyIndex st.keyStatus with
  | inl v =>
    obtain ⟨k, ks2, j⟩ := v
    exfalso
    simp only [getAvailableApiKey] at hfail
    rw [hscan] at hfail
    dsimp only at hfail
    cases hfail
  | inr r =>
    have hr : r = st.currentKeyIndex :=
      scan_inr_start now st.currentKeyIndex st.keyStatus hc
        st.keyStatus.length st.currentKeyIndex r (Nat.le_refl _)
        (by rw [Nat.sub_self, Nat.add_zero, Nat.mod_eq_of_lt hc]) hscan
    simp only [getAvailableApiKey]
    rw [hscan, hr]

theorem C9_witness : (getAvailableApiKey 0 exhPool).2 = exhPool :=
  C9_failure_preserves_state 0 exhPool (by decide) rfl

/-- C4: a failure report for the entry holding the given secret whose error
text contains one of the case-sensitive markers "rate limit",
"quota exceeded", "429" puts that entry into cooldown (available = false,
retryAfter = now + 5 minutes of milliseconds); a failure report without any
marker leaves the available flag of the entry true. -/
theorem C4_failure_classification (now : Nat) (st : PoolState)
    (secret d : String) (j : Nat) (e : KeyStatus)
    (hj : st.keyStatus[j]? = some e) (hkey : e.key = secret)
    (hfirst : ∀ k < j, ∀ e', st.keyStatus[k]? = some e' →
      e'.key ≠ secret) :
    (isRateLimitMsg d = true →
      (updateApiKeyStatus now secret false d st).keyStatus[j]? =
        some { e with available := false, retryAfter := now + 5 * 60 * 1000 }) ∧
    (isRateLimitMsg d = false →
      (updateApiKeyStatus now secret false d st).keyStatus[j]? =
        some { e with available := true }) := by
  have hlt : j < st.keyStatus.length := ((List.getElem?_eq_some).mp hj).1
  have hupd := update_found now secret false d st j e hj hkey hfirst
  constructor
  · intro hRL
    rw [hupd]
    dsimp only
    rw [if_neg Bool.false_ne_true, if_pos hRL,
      List.getElem?_set_self hlt]
    rfl
  · intro hNRL
    rw [hupd]
    dsimp only
    rw [if_neg Bool.false_ne_true,
      if_neg (by rw [hNRL]; exact Bool.false_ne_true),
      List.getElem?_set_self hlt]

theorem C4_witness :
    (isRateLimitMsg "429" = true →
      (updateApiKeyStatus 7 "a" false "429" cexPool).keyStatus[0]? =
        some { (⟨"a", false, 100⟩ : KeyStatus) with available := false, retryAfter := 7 + 5 * 60 * 1000 }) ∧
    (isRateLimitMsg "429" = false →
      (updateApiKeyStatus 7 "a" false "429" cexPool).keyStatus[0]? =
        some { (⟨"a", false, 100⟩ : KeyStatus) with available := true }) :=
  C4_failure_classification 7 cexPool "a" "429" 0 ⟨"a", false, 100⟩ rfl rfl
    (fun k hk e' _ => absurd hk (Nat.not_lt_zero k))

/-- C6: an available entry reported as failed with an error text containing
no rate-limit marker stays available and still passes the usability test of
the scan at any time, so the very next Acquire that reaches it may select
it. -/
theorem C6_non_rate_limit_keeps_available (now t : Nat) (st : PoolState)
    (secret d : String) (j : Nat) (e : KeyStatus)
    (hj : st.keyStatus[j]? = some e) (hkey : e.key = secret)
    (hfirst : ∀ k < j, ∀ e', st.keyStatus[k]? = some e' →
      e'.key ≠ secret)
    (havail : e.available = true)
    (hNRL : isRateLimitMsg d = false) :
    (updateApiKeyStatus now secret false d st).keyStatus[j]? =
      some { e with available := true } ∧
    usable t { e with available := true } = true := by
  have hlt : j < st.keyStatus.length := ((List.getElem?_eq_some).mp hj).1
  have hupd := update_found now secret false d st j e hj hkey hfirst
  constructor
  · rw [hupd]
    dsimp only
    rw [if_neg Bool.false_ne_true,
      if_neg (by rw [hNRL]; exact Bool.false_ne_true),
      List.getElem?_set_self hlt]
  · rfl

theorem C6_witness :
    (updateApiKeyStatus 3 "b" false "500 internal error" cexPool).keyStatus[1]? =
      some { (⟨"b", true, 0⟩ : KeyStatus) with available := true } ∧
    usable 9 { (⟨"b", true, 0⟩ : KeyStatus) with available := true } = true :=
  C6_non_rate_limit_keeps_available 3 9 cexPool "b" "500 internal error" 1
    ⟨"b", true, 0⟩ rfl rfl
    (by
      intro k hk e' he'
      match k, hk with
      | 0, _ =>
        injection he' with he'
        rw [← he']
        decide)
    rfl rfl

/-- C8: reporting an outcome for a secret that matches no entry is a silent
no-op: the state (entries and cursor) is returned unchanged. -/
theorem C8_unknown_secret_noop (now : Nat) (secret d : String)
    (success : Bool) (st : PoolState)
    (h : ∀ e ∈ st.keyStatus, e.key ≠ secret) :
    updateApiKeyStatus now secret success d st = st := by
  have hnone : st.keyStatus.findIdx? (fun x => x.key == secret) = none :=
    List.findIdx?_eq_none_iff.mpr
      (fun e he => beq_eq_false_iff_ne.mpr (h e he))
  unfold updateApiKeyStatus
  rw [hnone]

theorem C8_witness :
    updateApiKeyStatus 4 "zzz" false "429" cexPool = cexPool :=
  C8_unknown_secret_noop 4 "zzz" "429" false cexPool
    (by
      intro e he
      match e, he with
      | _, .head _ => decide
      | _, .tail _ (.head _) => decide)

/-- C10: a cooling entry with an unexpired deadline, reported as failed with
no rate-limit marker in the error text, has its available flag turned back
on while retryAfter is left untouched; it then passes the usability test of
the scan at any time, so it is immediately selectable again. -/
theorem C10_non_rate_limit_cancels_cooldown (now t : Nat) (st : PoolState)
    (secret d : String) (j : Nat) (e : KeyStatus)
    (hj : st.keyStatus[j]? = some e) (hkey : e.key = secret)
    (hfirst : ∀ k < j, ∀ e', st.keyStatus[k]? = some e' →
      e'.key ≠ secret)
    (hcool : e.available = false) (hfuture : now < e.retryAfter)
    (hNRL : isRateLimitMsg d = false) :
    (updateApiKeyStatus now secret false d st).keyStatus[j]? =
      some { e with available := true } ∧
    ({ e with available := true } : KeyStatus).retryAfter = e.retryAfter ∧
    usable t { e with available := true } = true := by
  have hlt : j < st.keyStatus.length := ((List.getElem?_eq_some).mp hj).1
  have hupd := update_found now secret false d st j e hj hkey hfirst
  refine ⟨?_, rfl, rfl⟩
  rw [hupd]
  dsimp only
  rw [if_neg Bool.false_ne_true,
    if_neg (by rw [hNRL]; exact Bool.false_ne_true),
    List.getElem?_set_self hlt]

theorem C10_witness :
    (updateApiKeyStatus 3 "a" false "boom" cexPool).keyStatus[0]? =
      some { (⟨"a", false, 100⟩ : KeyStatus) with available := true } ∧
    ({ (⟨"a", false, 100⟩ : KeyStatus) with available := true } :
      KeyStatus).retryAfter = (⟨"a", false, 100⟩ : KeyStatus).retryAfter ∧
    usable 3 { (⟨"a", false, 100⟩ : KeyStatus) with available := true } =
      true :=
  C10_non_rate_limit_cancels_cooldown 3 3 cexPool "a" "boom" 0
    ⟨"a", false, 100⟩ rfl rfl
    (fun k hk e' _ => absurd hk (Nat.not_lt_zero k))
    rfl (by decide) rfl

/-- C7: a cooling entry whose deadline has passed counts as usable, so the
next acquisition whose scan reaches it (offset d from the cursor, all
earlier offsets unusable) selects it and rewrites it to
available = true, retryAfter = 0; that normalization is idempotent, so a
second immediate acquisition finds nothing left to expire on it. -/
theorem C7_lazy_expiry_on_selection (now : Nat) (st : PoolState) (d : Nat)
    (e : KeyStatus)
    (hc : st.currentKeyIndex < st.keyStatus.length)
    (hd : d < st.keyStatus.length)
    (hskip : ∀ t < d, ∀ e',
      st.keyStatus[(st.currentKeyIndex + t) % st.keyStatus.length]? = some e' →
      usable now e' = false)
    (he : st.keyStatus[(st.currentKeyIndex + d) % st.keyStatus.length]? = some e)
    (hcool : e.available = false) (hexp : e.retryAfter ≤ now) :
    getAvailableApiKey now st =
      (Except.ok e.key,
        ⟨st.keyStatus.set ((st.currentKeyIndex + d) % st.keyStatus.length)
          ⟨e.key, true, 0⟩,
         ((st.currentKeyIndex + d) % st.keyStatus.length + 1) %
           st.keyStatus.length⟩) ∧
    normalize e = ⟨e.key, true, 0⟩ ∧
    normalize (normalize e) = normalize e := by
  have hu : usable now e = true := by
    unfold usable
    rw [hcool, decide_eq_true hexp, Bool.or_true]
  exact ⟨acquire_select now st hc d e hd hskip he hu, rfl, rfl⟩

theorem C7_witness :
    getAvailableApiKey 60 ⟨[⟨"a", false, 50⟩, ⟨"b", true, 0⟩], 0⟩ =
      (Except.ok "a",
        ⟨[⟨"a", false, 50⟩, ⟨"b", true, 0⟩].set 0 ⟨"a", true, 0⟩, 1 % 2⟩) ∧
    normalize ⟨"a", false, 50⟩ = ⟨"a", true, 0⟩ ∧
    normalize (normalize ⟨"a", false, 50⟩) = normalize ⟨"a", false, 50⟩ :=
  C7_lazy_expiry_on_selection 60 ⟨[⟨"a", false, 50⟩, ⟨"b", true, 0⟩], 0⟩ 0
    ⟨"a", false, 50⟩ (by decide) (by decide)
    (fun t ht _ _ => absurd ht (Nat.not_lt_zero t))
    rfl rfl (by decide)

/-- Invariant-carrying induction behind C5: as long as entry j (holding e,
cooling) is never usable at the call times and entry i0 ≠ j started usable
at every call time (or meanwhile got normalized), every acquisition in the
trace succeeds with a key different from the key of e, and entry j is never
touched. -/
theorem C5_aux (j i0 : Nat) (e e0 : KeyStatus) (N : Nat)
    (hij : i0 ≠ j) (hcool : e.available = false) :
    ∀ (ts : List Nat) (st : PoolState),
      st.keyStatus.length = N →
      st.currentKeyIndex < N →
      st.keyStatus[j]? = some e →
      (∀ i e', st.keyStatus[i]? = some e' → i ≠ j → e'.key ≠ e.key) →
      (∃ e1, st.keyStatus[i0]? = some e1 ∧ (e1 = e0 ∨ e1.available = true)) →
      (∀ t ∈ ts, usable t e0 = true) →
      (∀ t ∈ ts, t < e.retryAfter) →
      (∀ r ∈ (acquireTrace st ts).1, ∃ k, r = Except.ok k ∧ k ≠ e.key) ∧
      (acquireTrace st ts).2.keyStatus[j]? = some e := by
  intro ts
  induction ts with
  | nil =>
    intro st _ _ hj _ _ _ _
    refine ⟨fun r hr => absurd hr (List.not_mem_nil r), ?_⟩
    rw [acquireTrace]
    exact hj
  | cons t ts ih =>
    intro st hlen hc hj hkeys hi0 hu0 hts
    obtain ⟨e1, he1, hdisj⟩ := hi0
    have hu1 : usable t e1 = true := by
      rcases hdisj with h | h
      · rw [h]; exact hu0 t (List.mem_cons_self t ts)
      · unfold usable; rw [h]; rfl
    have hi0lt : i0 < st.keyStatus.length :=
      ((List.getElem?_eq_some).mp he1).1
    have hc' : st.currentKeyIndex < st.keyStatus.length := by
      rw [hlen]; exact hc
    have hui : usableIdx t st.keyStatus i0 = true :=
      (usableIdx_eq_true_iff t st.keyStatus i0).mpr ⟨e1, he1, hu1⟩
    obtain ⟨j', e', he', hu', heq⟩ :=
      acquire_success_spec t st hc' i0 hi0lt hui
    have hlt' : j' < st.keyStatus.length :=
      ((List.getElem?_eq_some).mp he').1
    have hj'ne : j' ≠ j := by
      intro hcontra
      subst hcontra
      rw [hj] at he'
      injection he' with hee
      unfold usable at hu'
      rw [← hee, hcool] at hu'
      have ht := hts t (List.mem_cons_self t ts)
      rw [decide_eq_false (by omega), Bool.or_self] at hu'
      cases hu'
    have hkne : e'.key ≠ e.key := hkeys j' e' he' hj'ne
    have hlen2 :
        (st.keyStatus.set j' (normalize e')).length = N := by
      rw [List.length_set, hlen]
    have hNpos : 0 < N := Nat.lt_of_le_of_lt (Nat.zero_le _) hc
    have hc2 : (j' + 1) % st.keyStatus.length < N := by
      rw [hlen]
      exact Nat.mod_lt _ hNpos
    have hj2 : (st.keyStatus.set j' (normalize e'))[j]? = some e := by
      rw [List.getElem?_set_ne hj'ne]
      exact hj
    have hkeys2 : ∀ i e'',
        (st.keyStatus.set j' (normalize e'))[i]? = some e'' → i ≠ j →
        e''.key ≠ e.key := by
      intro i e'' hi'' hij'
      by_cases hii : j' = i
      · subst hii
        rw [List.getElem?_set_self hlt'] at hi''
        injection hi'' with h''
        rw [← h'']
        exact hkne
      · rw [List.getElem?_set_ne hii] at hi''
        exact hkeys i e'' hi'' hij'
    have hi02 : ∃ e1',
        (st.keyStatus.set j' (normalize e'))[i0]? = some e1' ∧
        (e1' = e0 ∨ e1'.available = true) := by
      by_cases hii : j' = i0
      · subst hii
        exact ⟨normalize e', by rw [List.getElem?_set_self hlt'], Or.inr rfl⟩
      · exact ⟨e1, by rw [List.getElem?_set_ne hii]; exact he1, hdisj⟩
    have ihres := ih ⟨st.keyStatus.set j' (normalize e'),
        (j' + 1) % st.keyStatus.length⟩ hlen2 hc2 hj2 hkeys2 hi02
      (fun t' ht' => hu0 t' (List.mem_cons_of_mem t ht'))
      (fun t' ht' => hts t' (List.mem_cons_of_mem t ht'))
    constructor
    · intro r hr
      rw [acquireTrace] at hr
      rw [heq] at hr
      dsimp only at hr
      rcases List.mem_cons.mp hr with h | h
      · exact ⟨e'.key, h, hkne⟩
      · exact ihres.1 r h
    · rw [acquireTrace, heq]
      exact ihres.2

/-- C5: after entry j holding e enters cooldown, a sequence of acquisitions
at times all strictly before the retryAfter deadline of e never returns the
key of e and never modifies entry j, provided some other entry i0 is usable
at each of those times and no entry elsewhere in the pool holds the same
key. -/
theorem C5_cooling_key_not_returned (st : PoolState) (j i0 : Nat)
    (e e0 : KeyStatus) (ts : List Nat)
    (hc : st.currentKeyIndex < st.keyStatus.length)
    (hj : st.keyStatus[j]? = some e)
    (hcool : e.available = false)
    (hkeys : ∀ i e', st.keyStatus[i]? = some e' → i ≠ j → e'.key ≠ e.key)
    (hij : i0 ≠ j)
    (he0 : st.keyStatus[i0]? = some e0)
    (hu0 : ∀ t ∈ ts, usable t e0 = true)
    (hts : ∀ t ∈ ts, t < e.retryAfter) :
    (∀ r ∈ (acquireTrace st ts).1, ∃ k, r = Except.ok k ∧ k ≠ e.key) ∧
    (acquireTrace st ts).2.keyStatus[j]? = some e :=
  C5_aux j i0 e e0 st.keyStatus.length hij hcool ts st rfl hc hj hkeys
    ⟨e0, he0, Or.inl rfl⟩ hu0 hts

theorem C5_witness :
    (∀ r ∈ (acquireTrace cexPool [10, 20]).1,
      ∃ k, r = Except.ok k ∧ k ≠ (⟨"a", false, 100⟩ : KeyStatus).key) ∧
    (acquireTrace cexPool [10, 20]).2.keyStatus[0]? =
      some ⟨"a", false, 100⟩ :=
  C5_cooling_key_not_returned cexPool 0 1 ⟨"a", false, 100⟩ ⟨"b", true, 0⟩
    [10, 20] (by decide) rfl rfl
    (by
      intro i e' hi' hne
      match i, hi' with
      | 0, h => exact absurd rfl hne
      | 1, h =>
        injection h with h
        rw [← h]
        decide
      | n + 2, h => exact Option.noConfusion h)
    (by decide) rfl (by decide) (by decide)

end QuizTime
